import Mathlib

/-!
Shallow embedding of `models.py` from the django-tagging repository.

The storage layer is modelled as an explicit state `DB`: the `tag` table is a
list of tag names (column `name`, unique) and the `tagged_item` table is a
list of `TaggedItem` rows `(tag, content_type_id, object_id)`.  A record (a
Django model instance) is represented by its content-type id and object id,
the only two pieces of data `TagManager` reads from it.

`TagManager.update_tags` issues its storage operations strictly after all of
its reads (`current_tags` is materialised by `list(...)` before the first
write), so it is embedded in two layers: `update_tags_ops` computes the exact
sequence of storage operations (one optional batch delete, then a
get-or-create plus a row create per new tag, in source order) and
`update_tags` applies them.  This lets theorems speak both about the final
state and about the individual storage operations (counts of deletes/creates,
behaviour when the storage layer fails midway).
-/

namespace Tagging

/-- Row of the `tagged_item` table: columns `tag` (by unique name, standing
for `tag_id`), `content_type_id` and `object_id`
(`TaggedItem` in `models.py`). -/
structure TaggedItem where
  tag : String
  ctype : Nat
  objId : Nat
deriving DecidableEq, Repr

/-- State of the storage layer: the `tag` table (list of names, `Tag` rows)
and the `tagged_item` table. -/
structure DB where
  tags : List String
  items : List TaggedItem
deriving DecidableEq, Repr

/-- Record being tagged, reduced to what `update_tags`/`get_for_object` read
from it: `ContentType.objects.get_for_model(obj).id` and `obj.id`. -/
structure Record where
  ctype : Nat
  id : Nat
deriving DecidableEq, Repr

/-- Helper for `pySplit`: walks the characters, accumulating the current
word (reversed); whitespace ends a word, empty words are dropped. -/
def splitAux : List Char → List Char → List String
  | [], acc => if acc.isEmpty then [] else [String.mk acc.reverse]
  | c :: cs, acc =>
    if c.isWhitespace then
      (if acc.isEmpty then [] else [String.mk acc.reverse]) ++ splitAux cs []
    else
      splitAux cs (c :: acc)

/-- Python's `str.split()` with no arguments: split on runs of whitespace,
discarding empty pieces. -/
def pySplit (s : String) : List String :=
  splitAux s.toList []

/-- Lines 18-20 of `models.py`: `updated_tag_names = []` when `tag_list` is
`None`, otherwise `set(tag_list.split())`.  The Python set is modelled as a
duplicate-free list; set iteration order is unspecified in Python, so any
fixed deduplication order is a faithful refinement. -/
def parseTagList : Option String → List String
  | none => []
  | some s => (pySplit s).dedup

/-- The join predicate `items__content_type__pk = r.ctype` and
`items__object_id = r.id` on a `tagged_item` row. -/
def matchesRecord (r : Record) (it : TaggedItem) : Bool :=
  it.ctype == r.ctype && it.objId == r.id

/-- `TagManager.get_for_object` (lines 37-44): tags joined against the
`tagged_item` rows of this exact record — one result row per matching
association row (the queryset has no `DISTINCT`), here one tag name per
matching `TaggedItem`. -/
def get_for_object (db : DB) (r : Record) : List String :=
  (db.items.filter (matchesRecord r)).map (fun it => it.tag)

/-- Storage operations `update_tags` can issue: the batch
`TaggedItem.objects.filter(...).delete()` (line 26-28), `Tag.objects.get_or_create`
(line 34) and `TaggedItem.objects.create` (line 35). -/
inductive StoreOp where
  | deleteItems (ctype objId : Nat) (tagNames : List String)
  | getOrCreateTag (name : String)
  | createItem (it : TaggedItem)
deriving DecidableEq, Repr

/-- Effect of one storage operation on the state. -/
def applyOp (db : DB) : StoreOp → DB
  | .deleteItems c o ts =>
      { db with items :=
          db.items.filter (fun it => !(it.ctype == c && it.objId == o && ts.contains it.tag)) }
  | .getOrCreateTag n =>
      if db.tags.contains n then db else { db with tags := db.tags ++ [n] }
  | .createItem it =>
      { db with items := db.items ++ [it] }

/-- Effect of a sequence of storage operations, first to last. -/
def applyOps (db : DB) (ops : List StoreOp) : DB :=
  ops.foldl applyOp db

/-- The storage operations issued by `TagManager.update_tags(obj, tag_list)`
(lines 10-35), in source order: `current_tags` is read first (line 16-17);
`tags_for_removal` are the current tags whose name is not among the updated
names (lines 23-24); if any, one batch delete of their rows for this record
(lines 25-28); then, for each updated name not already current, a
get-or-create of the `Tag` followed by the creation of the association row
(lines 30-35). -/
def update_tags_ops (db : DB) (r : Record) (tag_list : Option String) : List StoreOp :=
  let current_tags := get_for_object db r
  let updated_tag_names := parseTagList tag_list
  let tags_for_removal := current_tags.filter (fun t => !(updated_tag_names.contains t))
  let removeOps := if tags_for_removal.length > 0 then
      [StoreOp.deleteItems r.ctype r.id tags_for_removal]
    else []
  let addOps := (updated_tag_names.filter (fun n => !(current_tags.contains n))).flatMap
      (fun n => [StoreOp.getOrCreateTag n, StoreOp.createItem ⟨n, r.ctype, r.id⟩])
  removeOps ++ addOps

/-- `TagManager.update_tags` (lines 10-35): all reads precede all writes in
the source, so the call is exactly the application of its operation trace. -/
def update_tags (db : DB) (r : Record) (tag_list : Option String) : DB :=
  applyOps db (update_tags_ops db r tag_list)

/-- Uniqueness constraint `unique_together = (('tag', 'content_type',
'object_id'),)` of `TaggedItem.Meta` (lines 140-145): since a row is exactly
this triple here, no two rows of the table coincide. -/
def uniqueTriples (db : DB) : Prop :=
  db.items.Nodup

instance (db : DB) : Decidable (uniqueTriples db) := by
  unfold uniqueTriples; infer_instance

/-- Python's `max` over a list of counts: `none` models the `ValueError`
raised on an empty sequence (line 82 of `models.py`). -/
def listMax : List Nat → Option Nat
  | [] => none
  | x :: xs => some (xs.foldl Nat.max x)

/-- Python's `min` over a list of counts, `none` on the empty sequence. -/
def listMin : List Nat → Option Nat
  | [] => none
  | x :: xs => some (xs.foldl Nat.min x)

/-- Inner loop of `cloud_for_model` (lines 87-92): scan the threshold pairs
`(value, index)` with a `font_set` flag, assigning the tag's `font_size`
(modelled as the accumulator, `none` while unset) to the index of a threshold
whose value is at least the tag's score, only when not already set.
Noncomputable solely because the comparison is on idealised reals. -/
noncomputable def assignFontSize (score : ℝ) (thresholds : List (ℝ × Nat)) : Option Nat :=
  thresholds.foldl
    (fun font_size th => if score ≤ th.1 ∧ font_size = none then some th.2 else font_size)
    none

/-- `TagManager.cloud_for_model` (lines 68-93), with Python floats idealised
as real numbers.  A tag enters the computation only through `tag.count`
(a natural number) and leaves it only through the `font_size` attribute set
on it, so the input is the list of counts of
`usage_for_model(Model, counts=True)` in order, and the output the
`font_size` of each tag in order (`none` when the attribute was never set).
The outer `none` models the `ValueError` that `max(temp)` raises on an empty
sequence: with no tagged records there is no guard and line 82 raises.
(For `steps = 0` Python would raise `ZeroDivisionError` at line 84; in this
embedding real division by zero is total, so every theorem below assumes
`1 ≤ steps`, and `steps` defaults to 4 anyway.) -/
noncomputable def cloud_for_model (counts : List Nat) (steps : Nat) : Option (List (Option Nat)) :=
  match listMax counts, listMin counts with
  | some mx, some mn =>
      let max_weight : ℝ := mx
      let min_weight : ℝ := mn
      let new_delta : ℝ := (max_weight - min_weight) / (steps : ℝ)
      let new_thresholds : List (ℝ × Nat) :=
        (List.range (steps + 1)).map
          (fun (i : Nat) => (100 * Real.log ((min_weight + (i : ℝ) * new_delta) + 2), i))
      some (counts.map (fun (c : Nat) =>
        assignFontSize (100 * Real.log ((c : ℝ) + 2))
          ((new_thresholds.take (steps + 1)).drop 1)))
  | _, _ => none

/-- Assignment rule as the specification states it: the first `i` among
`1, ..., steps` with `100·ln(count+2) ≤ 100·ln(min_weight + i·delta + 2)`,
if any.  The theorems below prove `cloud_for_model` computes exactly this. -/
noncomputable def firstFit (min_weight new_delta : ℝ) (steps : Nat) (c : Nat) : Option Nat :=
  ((List.range steps).map (fun (i : Nat) => i + 1)).find?
    (fun (i : Nat) => decide (100 * Real.log ((c : ℝ) + 2)
      ≤ 100 * Real.log ((min_weight + (i : ℝ) * new_delta) + 2)))

example : pySplit "b  c" = ["b", "c"] := by decide
example : parseTagList (some "a b a") = ["b", "a"] := by decide
example : parseTagList (some "") = [] := by decide
example :
    update_tags ⟨["a"], [⟨"a", 1, 1⟩]⟩ ⟨1, 1⟩ (some "b")
      = ⟨["a", "b"], [⟨"b", 1, 1⟩]⟩ := by decide

/-! ### Basic facts about the operation semantics -/

lemma applyOps_append (db : DB) (l₁ l₂ : List StoreOp) :
    applyOps db (l₁ ++ l₂) = applyOps (applyOps db l₁) l₂ :=
  List.foldl_append _ _ _ _

lemma applyOp_getOrCreateTag_items (db : DB) (n : String) :
    (applyOp db (.getOrCreateTag n)).items = db.items := by
  simp only [applyOp]
  split <;> rfl

lemma addOps_items (names : List String) (c o : Nat) (db : DB) :
    (applyOps db (names.flatMap
        (fun n => [StoreOp.getOrCreateTag n, StoreOp.createItem ⟨n, c, o⟩]))).items
      = db.items ++ names.map (fun n => ⟨n, c, o⟩) := by
  induction names generalizing db with
  | nil => simp [applyOps]
  | cons n ns ih =>
      rw [List.flatMap_cons, applyOps_append, ih]
      have h1 : (applyOps db [StoreOp.getOrCreateTag n, StoreOp.createItem ⟨n, c, o⟩]).items
          = db.items ++ [(⟨n, c, o⟩ : TaggedItem)] := by
        have h2 : (applyOp (applyOp db (StoreOp.getOrCreateTag n))
              (StoreOp.createItem ⟨n, c, o⟩)).items
            = (applyOp db (StoreOp.getOrCreateTag n)).items ++ [(⟨n, c, o⟩ : TaggedItem)] := rfl
        rw [show applyOps db [StoreOp.getOrCreateTag n, StoreOp.createItem ⟨n, c, o⟩]
              = applyOp (applyOp db (StoreOp.getOrCreateTag n))
                  (StoreOp.createItem ⟨n, c, o⟩) from rfl,
            h2, applyOp_getOrCreateTag_items]
      rw [h1]
      simp

/-- Rows after `update_tags`: the old rows minus the removed associations of
this record, then one fresh row per added name, in order. -/
lemma update_tags_items (db : DB) (r : Record) (s : Option String) :
    (update_tags db r s).items
      = db.items.filter (fun it =>
          !(it.ctype == r.ctype && it.objId == r.id
            && ((get_for_object db r).filter
                (fun t => !(parseTagList s).contains t)).contains it.tag))
        ++ ((parseTagList s).filter (fun n => !(get_for_object db r).contains n)).map
            (fun n => ⟨n, r.ctype, r.id⟩) := by
  simp only [update_tags, update_tags_ops]
  rw [applyOps_append, addOps_items]
  by_cases h :
      ((get_for_object db r).filter (fun t => !(parseTagList s).contains t)).length > 0
  · rw [if_pos h]
    rfl
  · rw [if_neg h]
    have hnil : (get_for_object db r).filter (fun t => !(parseTagList s).contains t) = [] :=
      List.eq_nil_of_length_eq_zero (by omega)
    simp only [hnil, List.contains_nil, Bool.and_false, Bool.not_false, List.filter_true]
    rfl

lemma mem_get_for_object (db : DB) (r : Record) (x : String) :
    x ∈ get_for_object db r
      ↔ ∃ it ∈ db.items, matchesRecord r it = true ∧ it.tag = x := by
  simp only [get_for_object, List.mem_map, List.mem_filter]
  constructor
  · rintro ⟨it, ⟨hmem, hm⟩, hx⟩
    exact ⟨it, hmem, hm, hx⟩
  · rintro ⟨it, hmem, hm, hx⟩
    exact ⟨it, ⟨hmem, hm⟩, hx⟩

lemma parseTagList_nodup (s : Option String) : (parseTagList s).Nodup := by
  cases s with
  | none => exact List.nodup_nil
  | some s => exact List.nodup_dedup _

/-- Round-trip at the level of membership: the tags associated with `r`
after `update_tags db r s` are exactly the parsed names of `s`. -/
lemma mem_get_for_object_update_tags (db : DB) (r : Record) (s : Option String) (x : String) :
    x ∈ get_for_object (update_tags db r s) r ↔ x ∈ parseTagList s := by
  rw [show get_for_object (update_tags db r s) r
        = ((update_tags db r s).items.filter (matchesRecord r)).map (fun it => it.tag)
      from rfl,
    update_tags_items]
  simp [matchesRecord]
  constructor
  · rintro (⟨a, ⟨ha, ⟨hct, hid⟩, hor⟩, hx⟩ | ⟨a, ⟨⟨n, ⟨hnU, -⟩, hna⟩, -, -⟩, hx⟩)
    · rcases hor with (hbad | hbad) | hacur | haU
      · exact absurd hct hbad
      · exact absurd hid hbad
      · exact absurd ((mem_get_for_object db r a.tag).mpr
          ⟨a, ha, by simp [matchesRecord, hct, hid], rfl⟩) hacur
      · exact hx ▸ haU
    · subst hna
      exact hx ▸ hnU
  · intro hxU
    by_cases hxcur : x ∈ get_for_object db r
    · left
      obtain ⟨it, hmem, hm, hx⟩ := (mem_get_for_object db r x).mp hxcur
      simp only [matchesRecord, Bool.and_eq_true, beq_iff_eq] at hm
      exact ⟨it, ⟨hmem, ⟨hm.1, hm.2⟩, Or.inr (Or.inr (hx ▸ hxU))⟩, hx⟩
    · right
      exact ⟨⟨x, r.ctype, r.id⟩, ⟨⟨x, ⟨hxU, hxcur⟩, rfl⟩, rfl, rfl⟩, rfl⟩

/-- Frame property: `update_tags` on one `(content type, id)` pair leaves the
associations seen by any other pair untouched. -/
lemma get_for_object_update_tags_frame (db : DB) (r r' : Record) (s : Option String)
    (h : r.ctype ≠ r'.ctype ∨ r.id ≠ r'.id) :
    get_for_object (update_tags db r s) r' = get_for_object db r' := by
  rw [show get_for_object (update_tags db r s) r'
        = ((update_tags db r s).items.filter (matchesRecord r')).map (fun it => it.tag)
      from rfl,
    update_tags_items, List.filter_append]
  have hB : (((parseTagList s).filter (fun n => !(get_for_object db r).contains n)).map
        (fun n => (⟨n, r.ctype, r.id⟩ : TaggedItem))).filter (matchesRecord r') = [] := by
    rw [List.filter_eq_nil_iff]
    rintro a ha
    obtain ⟨n, -, rfl⟩ := List.mem_map.mp ha
    rcases h with h | h <;> simp [matchesRecord, h]
  have hA : ((db.items.filter (fun it =>
        !(it.ctype == r.ctype && it.objId == r.id
          && ((get_for_object db r).filter
              (fun t => !(parseTagList s).contains t)).contains it.tag))).filter
        (matchesRecord r')) = db.items.filter (matchesRecord r') := by
    rw [List.filter_filter]
    refine List.filter_congr ?_
    intro a _
    cases hm : matchesRecord r' a with
    | false => simp
    | true =>
        simp only [matchesRecord, Bool.and_eq_true, beq_iff_eq] at hm
        rcases h with h | h
        · simp [hm.1, hm.2]
          exact Or.inl (Or.inl fun hc => h hc.symm)
        · simp [hm.1, hm.2]
          exact Or.inl (Or.inr fun hc => h hc.symm)
  rw [hA, hB, List.append_nil]
  rfl

/-- Invariant preservation at the level of rows: `update_tags` keeps the
`tagged_item` rows pairwise distinct. -/
lemma update_tags_items_nodup (db : DB) (r : Record) (s : Option String)
    (h : db.items.Nodup) : (update_tags db r s).items.Nodup := by
  rw [update_tags_items, List.nodup_append]
  refine ⟨h.filter _, ?_, ?_⟩
  · refine List.Nodup.map_on ?_ ((parseTagList_nodup s).filter _)
    intro a _ b _ hab
    simpa using congrArg TaggedItem.tag hab
  · intro a haA haB
    obtain ⟨n, hn, rfl⟩ := List.mem_map.mp haB
    obtain ⟨-, hncur⟩ := List.mem_filter.mp hn
    have hmem : (⟨n, r.ctype, r.id⟩ : TaggedItem) ∈ db.items := List.mem_of_mem_filter haA
    have hcur : n ∈ get_for_object db r :=
      (mem_get_for_object db r n).mpr ⟨⟨n, r.ctype, r.id⟩, hmem, by simp [matchesRecord], rfl⟩
    simp [hcur] at hncur

/-! ### Facts about the cloud computation -/

lemma assignFontSize_stays (score : ℝ) (v : Nat) (l : List (ℝ × Nat)) :
    l.foldl (fun font_size th => if score ≤ th.1 ∧ font_size = none then some th.2 else font_size)
      (some v) = some v := by
  induction l with
  | nil => rfl
  | cons t ts ih => simpa using ih

/-- The flag-guarded scan of `assignFontSize` picks exactly the first
threshold at or above the score. -/
lemma assignFontSize_eq_find (score : ℝ) (ths : List (ℝ × Nat)) :
    assignFontSize score ths
      = (ths.find? (fun th => decide (score ≤ th.1))).map (fun th => th.2) := by
  induction ths with
  | nil => rfl
  | cons th rest ih =>
      by_cases h : score ≤ th.1
      · rw [show assignFontSize score (th :: rest)
            = rest.foldl
                (fun font_size t => if score ≤ t.1 ∧ font_size = none then some t.2 else font_size)
                (if score ≤ th.1 ∧ (none : Option Nat) = none then some th.2 else none)
            from rfl]
        rw [if_pos ⟨h, rfl⟩, assignFontSize_stays,
          List.find?_cons_of_pos _ (by simpa using h)]
        rfl
      · rw [show assignFontSize score (th :: rest)
            = rest.foldl
                (fun font_size t => if score ≤ t.1 ∧ font_size = none then some t.2 else font_size)
                (if score ≤ th.1 ∧ (none : Option Nat) = none then some th.2 else none)
            from rfl]
        rw [if_neg (fun hc => h hc.1), List.find?_cons_of_neg _ (by simpa using h)]
        exact ih

/-- The slice `new_thresholds[1 : steps+1]` of the `steps + 1` thresholds is
the thresholds at indices `1, ..., steps`. -/
lemma thresholds_slice (steps : Nat) (g : Nat → ℝ × Nat) :
    (((List.range (steps + 1)).map g).take (steps + 1)).drop 1
      = (List.range steps).map (fun i => g (i + 1)) := by
  rw [List.take_of_length_le (by simp), List.range_succ_eq_map]
  simp [List.map_map, Function.comp_def]

/-- `cloud_for_model` on a non-empty usage list assigns every tag the first
fitting threshold index, in the sense of `firstFit`. -/
lemma cloud_for_model_eq (counts : List Nat) (steps mx mn : Nat)
    (hmx : listMax counts = some mx) (hmn : listMin counts = some mn) :
    cloud_for_model counts steps
      = some (counts.map
          (firstFit (mn : ℝ) (((mx : ℝ) - (mn : ℝ)) / (steps : ℝ)) steps)) := by
  simp only [cloud_for_model, hmx, hmn]
  refine congrArg some (List.map_congr_left fun c _ => ?_)
  rw [assignFontSize_eq_find, thresholds_slice, List.find?_map, firstFit, List.find?_map,
    Option.map_map]
  rfl

/-- Any index `firstFit` returns lies in `[1, steps]`. -/
lemma firstFit_mem_bounds (minW delta : ℝ) (steps c w : Nat)
    (h : firstFit minW delta steps c = some w) : 1 ≤ w ∧ w ≤ steps := by
  have hmem := List.mem_of_find?_eq_some h
  simp only [List.mem_map, List.mem_range] at hmem
  obtain ⟨i, hi, rfl⟩ := hmem
  omega

lemma foldl_max_bound (xs : List Nat) (a : Nat) :
    a ≤ xs.foldl Nat.max a ∧ ∀ c ∈ xs, c ≤ xs.foldl Nat.max a := by
  induction xs generalizing a with
  | nil => exact ⟨Nat.le_refl _, by simp⟩
  | cons x t ih =>
      have h1 := ih (Nat.max a x)
      refine ⟨le_trans (Nat.le_max_left a x) h1.1, ?_⟩
      intro c hc
      rcases List.mem_cons.mp hc with rfl | hc
      · exact le_trans (Nat.le_max_right a c) h1.1
      · exact h1.2 c hc

/-- Every count is at most the Python `max` of the counts. -/
lemma le_listMax (counts : List Nat) (mx : Nat) (hmx : listMax counts = some mx) :
    ∀ c ∈ counts, c ≤ mx := by
  cases counts with
  | nil => cases hmx
  | cons x xs =>
      intro c hc
      obtain rfl : xs.foldl Nat.max x = mx := by simpa [listMax] using hmx
      rcases List.mem_cons.mp hc with rfl | hc
      · exact (foldl_max_bound xs c).1
      · exact (foldl_max_bound xs x).2 c hc

lemma find?_le_of_imp {l : List Nat} (hl : l.Pairwise (· ≤ ·)) {p q : Nat → Bool}
    (hpq : ∀ i, q i = true → p i = true) {w2 : Nat} (h2 : l.find? q = some w2) :
    ∃ w1, l.find? p = some w1 ∧ w1 ≤ w2 := by
  induction l with
  | nil => simp at h2
  | cons x xs ih =>
      cases hx : p x with
      | true =>
          refine ⟨x, List.find?_cons_of_pos _ hx, ?_⟩
          rcases List.mem_cons.mp (List.mem_of_find?_eq_some h2) with rfl | hw2
          · exact Nat.le_refl _
          · exact (List.pairwise_cons.mp hl).1 w2 hw2
      | false =>
          have hqx : ¬q x = true := fun hq => by simp [hpq x hq] at hx
          rw [List.find?_cons_of_neg _ hqx] at h2
          rw [List.find?_cons_of_neg _ (by simp [hx])]
          exact ih (List.pairwise_cons.mp hl).2 h2

lemma pairwise_le_range_map (steps : Nat) :
    (((List.range steps).map (fun i => i + 1)) : List Nat).Pairwise (· ≤ ·) :=
  List.Pairwise.map _ (fun a b hab => by omega) (List.pairwise_lt_range steps)

/-- Every count present in the list is assigned some weight by `firstFit`
(over the reals, the maximal count meets the last threshold exactly, so even
the boundary tag is assigned). -/
lemma firstFit_total (counts : List Nat) (steps mx mn c : Nat)
    (hmx : listMax counts = some mx) (hsteps : 1 ≤ steps) (hc : c ∈ counts) :
    ∃ w, firstFit (mn : ℝ) (((mx : ℝ) - (mn : ℝ)) / (steps : ℝ)) steps c = some w
      ∧ 1 ≤ w ∧ w ≤ steps := by
  have hcmx : (c : ℝ) ≤ (mx : ℝ) := by exact_mod_cast le_listMax counts mx hmx c hc
  have hsne : (steps : ℝ) ≠ 0 := by
    have : (0 : ℕ) < steps := hsteps
    positivity
  have hth : (mn : ℝ) + (steps : ℝ) * (((mx : ℝ) - (mn : ℝ)) / (steps : ℝ)) = (mx : ℝ) := by
    rw [mul_div_cancel₀ _ hsne]
    ring
  have hpred : decide (100 * Real.log ((c : ℝ) + 2)
      ≤ 100 * Real.log (((mn : ℝ) + ((steps : Nat) : ℝ)
          * (((mx : ℝ) - (mn : ℝ)) / (steps : ℝ))) + 2)) = true := by
    rw [decide_eq_true_eq, hth]
    have hlog : Real.log ((c : ℝ) + 2) ≤ Real.log ((mx : ℝ) + 2) :=
      Real.log_le_log (by positivity) (by linarith)
    linarith
  have hmem : steps ∈ (List.range steps).map (fun (i : Nat) => i + 1) := by
    simp only [List.mem_map, List.mem_range]
    exact ⟨steps - 1, by omega, by omega⟩
  have hsome : ((((List.range steps).map (fun (i : Nat) => i + 1)).find?
      (fun (i : Nat) => decide (100 * Real.log ((c : ℝ) + 2)
        ≤ 100 * Real.log (((mn : ℝ) + (i : ℝ)
            * (((mx : ℝ) - (mn : ℝ)) / (steps : ℝ))) + 2)))).isSome) = true :=
    List.find?_isSome.mpr ⟨steps, hmem, hpred⟩
  obtain ⟨w, hw⟩ := Option.isSome_iff_exists.mp hsome
  exact ⟨w, hw, firstFit_mem_bounds _ _ _ _ _ hw⟩

/-! ### Claim theorems: tag-set reconciliation -/

/-- C1: for every record `r` and every desired tag string `s` (including the
empty string and the absent `None`), after `update_tags(r, s)` completes, the
set of tag names returned by `get_for_object(r)` equals exactly the set of
unique whitespace-delimited names in `s` (empty/absent `s` yields the empty
set), with no duplicate associations. -/
theorem update_tags_get_for_object_roundtrip (db : DB) (r : Record) (s : Option String)
    (hinv : uniqueTriples db) :
    (get_for_object (update_tags db r s) r).toFinset = (parseTagList s).toFinset
    ∧ (get_for_object (update_tags db r s) r).Nodup := by
  constructor
  · ext x
    simp only [List.mem_toFinset]
    exact mem_get_for_object_update_tags db r s x
  · have hnodup := update_tags_items_nodup db r s hinv
    rw [show get_for_object (update_tags db r s) r
          = ((update_tags db r s).items.filter (matchesRecord r)).map (fun it => it.tag)
        from rfl]
    refine List.Nodup.map_on ?_ (hnodup.filter _)
    intro a ha b hb hab
    have hma := (List.mem_filter.mp ha).2
    have hmb := (List.mem_filter.mp hb).2
    simp only [matchesRecord, Bool.and_eq_true, beq_iff_eq] at hma hmb
    cases a
    cases b
    simp_all

/-- Witness for C1 at a concrete input: a record tagged `{a, b}` updated to
`"b c"`, under a duplicate-free association table. -/
theorem update_tags_get_for_object_roundtrip_witness :
    uniqueTriples ⟨["a", "b"], [⟨"a", 1, 1⟩, ⟨"b", 1, 1⟩]⟩
    ∧ ((get_for_object
          (update_tags ⟨["a", "b"], [⟨"a", 1, 1⟩, ⟨"b", 1, 1⟩]⟩ ⟨1, 1⟩ (some "b c"))
          ⟨1, 1⟩).toFinset = (parseTagList (some "b c")).toFinset
      ∧ (get_for_object
          (update_tags ⟨["a", "b"], [⟨"a", 1, 1⟩, ⟨"b", 1, 1⟩]⟩ ⟨1, 1⟩ (some "b c"))
          ⟨1, 1⟩).Nodup) :=
  ⟨by decide, update_tags_get_for_object_roundtrip _ _ _ (by decide)⟩

/-- C3 (counterexample): the claim that a storage failure at any point during
`update_tags` leaves the association set unchanged is false: on a record
tagged `{a}` being updated to `"b"`, failing after the first storage
operation (the batch delete) leaves the record with no tags at all, not with
`{a}`. -/
theorem update_tags_not_atomic_cex :
    get_for_object
        (applyOps ⟨["a"], [⟨"a", 1, 1⟩]⟩
          ((update_tags_ops ⟨["a"], [⟨"a", 1, 1⟩]⟩ ⟨1, 1⟩ (some "b")).take 1))
        ⟨1, 1⟩
      ≠ get_for_object ⟨["a"], [⟨"a", 1, 1⟩]⟩ ⟨1, 1⟩ := by
  decide

/-- C3 (amended): `update_tags` issues its batch delete and its creates as a
sequence of separate storage operations with no enclosing transaction — the
call is exactly the application of that sequence — and a failure midway can
leave a state whose association set differs both from the pre-call state and
from the completed post-call state (the reconciliation is not atomic). -/
theorem update_tags_failure_midway :
    (∀ (db : DB) (r : Record) (s : Option String),
      update_tags db r s = applyOps db (update_tags_ops db r s))
    ∧ ∃ (db : DB) (r : Record) (s : Option String) (k : Nat),
        k < (update_tags_ops db r s).length
        ∧ get_for_object (applyOps db ((update_tags_ops db r s).take k)) r
            ≠ get_for_object db r
        ∧ get_for_object (applyOps db ((update_tags_ops db r s).take k)) r
            ≠ get_for_object (update_tags db r s) r := by
  refine ⟨fun db r s => rfl, ⟨["a"], [⟨"a", 1, 1⟩]⟩, ⟨1, 1⟩, some "b", 1, ?_, ?_, ?_⟩ <;>
    decide

/-- C4: starting from any state satisfying the `(tag, content_type,
object_id)` uniqueness invariant of `TaggedItem.Meta`, `update_tags` never
creates a second association row for the same tag, type and record: the
invariant is preserved. -/
theorem update_tags_preserves_unique_triples (db : DB) (r : Record) (s : Option String)
    (hinv : uniqueTriples db) : uniqueTriples (update_tags db r s) :=
  update_tags_items_nodup db r s hinv

/-- Witness for C4 at a concrete input. -/
theorem update_tags_preserves_unique_triples_witness :
    uniqueTriples ⟨["a", "b"], [⟨"a", 1, 1⟩, ⟨"b", 1, 1⟩]⟩
    ∧ uniqueTriples
        (update_tags ⟨["a", "b"], [⟨"a", 1, 1⟩, ⟨"b", 1, 1⟩]⟩ ⟨1, 1⟩ (some "b c")) :=
  ⟨by decide, update_tags_preserves_unique_triples _ _ _ (by decide)⟩

/-- C6: `update_tags` is idempotent — repeating a call changes nothing: the
second call issues no storage operations at all (no deletes, no creates, so
in particular no duplicate associations), and the state, hence the final tag
set, is identical. -/
theorem update_tags_idempotent (db : DB) (r : Record) (s : Option String) :
    update_tags_ops (update_tags db r s) r s = []
    ∧ update_tags (update_tags db r s) r s = update_tags db r s := by
  have hops : update_tags_ops (update_tags db r s) r s = [] := by
    have hrem : (get_for_object (update_tags db r s) r).filter
        (fun t => !(parseTagList s).contains t) = [] := by
      rw [List.filter_eq_nil_iff]
      intro t ht
      have hU := (mem_get_for_object_update_tags db r s t).mp ht
      simp [hU]
    have hadd : (parseTagList s).filter
        (fun n => !(get_for_object (update_tags db r s) r).contains n) = [] := by
      rw [List.filter_eq_nil_iff]
      intro n hn
      have hcur := (mem_get_for_object_update_tags db r s n).mpr hn
      simp [hcur]
    simp only [update_tags_ops, hrem, hadd]
    simp
  refine ⟨hops, ?_⟩
  rw [show update_tags (update_tags db r s) r s
      = applyOps (update_tags db r s) (update_tags_ops (update_tags db r s) r s) from rfl,
    hops]
  rfl

/-- C5: minimal diff — for any record whose current association rows are
exactly those for tags `a` and `b`, updating to `"b c"` issues exactly one
batch delete, whose filter names only `a`, and exactly one association
create, for `c` only (plus the get-or-create lookup of the tag row `c`);
`b`'s association row is never deleted nor recreated: the very same row is
still present afterwards, and no issued operation mentions `b`. -/
theorem update_tags_minimal_diff (db : DB) (r : Record)
    (h : db.items.filter (matchesRecord r)
      = [⟨"a", r.ctype, r.id⟩, ⟨"b", r.ctype, r.id⟩]) :
    update_tags_ops db r (some "b c")
      = [StoreOp.deleteItems r.ctype r.id ["a"],
         StoreOp.getOrCreateTag "c", StoreOp.createItem ⟨"c", r.ctype, r.id⟩]
    ∧ (⟨"b", r.ctype, r.id⟩ : TaggedItem) ∈ (update_tags db r (some "b c")).items := by
  have hcur : get_for_object db r = ["a", "b"] := by
    rw [show get_for_object db r = (db.items.filter (matchesRecord r)).map (fun it => it.tag)
        from rfl,
      h]
    rfl
  have hU : parseTagList (some "b c") = ["b", "c"] := by decide
  have hrem : (["a", "b"] : List String).filter
      (fun t => !(["b", "c"] : List String).contains t) = ["a"] := by decide
  have hadd : (["b", "c"] : List String).filter
      (fun n => !(["a", "b"] : List String).contains n) = ["c"] := by decide
  constructor
  · simp only [update_tags_ops, hcur, hU, hrem, hadd]
    rfl
  · rw [update_tags_items]
    simp only [hcur, hU, hrem, hadd]
    refine List.mem_append.mpr (Or.inl (List.mem_filter.mpr ⟨?_, ?_⟩))
    · exact List.mem_of_mem_filter (h ▸ List.mem_cons_of_mem _ (List.mem_singleton.mpr rfl))
    · simp

/-- Witness for C5 at a concrete state: content type 3, id 9, rows exactly
`{a, b}`. -/
theorem update_tags_minimal_diff_witness :
    ((⟨["a", "b"], [⟨"a", 3, 9⟩, ⟨"b", 3, 9⟩]⟩ : DB).items.filter (matchesRecord ⟨3, 9⟩)
      = [⟨"a", 3, 9⟩, ⟨"b", 3, 9⟩])
    ∧ (update_tags_ops ⟨["a", "b"], [⟨"a", 3, 9⟩, ⟨"b", 3, 9⟩]⟩ ⟨3, 9⟩ (some "b c")
        = [StoreOp.deleteItems 3 9 ["a"],
           StoreOp.getOrCreateTag "c", StoreOp.createItem ⟨"c", 3, 9⟩]
      ∧ (⟨"b", 3, 9⟩ : TaggedItem)
          ∈ (update_tags ⟨["a", "b"], [⟨"a", 3, 9⟩, ⟨"b", 3, 9⟩]⟩ ⟨3, 9⟩ (some "b c")).items) :=
  ⟨by decide, update_tags_minimal_diff _ _ (by decide)⟩

/-- C9: type isolation — tagging record `(t1, id)` with `"a"` and then record
`(t2, id)` of a different content type but the same numeric id with `"b"`
leaves `get_for_object` returning exactly `{a}` for the first and `{b}` for
the second; in general an `update_tags` on one content type never affects the
associations of another content type with the same id. -/
theorem update_tags_type_isolation (db : DB) (t1 t2 id : Nat) (h : t1 ≠ t2) :
    (get_for_object (update_tags (update_tags db ⟨t1, id⟩ (some "a")) ⟨t2, id⟩ (some "b"))
        ⟨t1, id⟩).toFinset = {"a"}
    ∧ (get_for_object (update_tags (update_tags db ⟨t1, id⟩ (some "a")) ⟨t2, id⟩ (some "b"))
        ⟨t2, id⟩).toFinset = {"b"}
    ∧ ∀ (db' : DB) (q q' : Record) (s : Option String), q.ctype ≠ q'.ctype →
        get_for_object (update_tags db' q s) q' = get_for_object db' q' := by
  have hframe : ∀ (db' : DB) (q q' : Record) (s : Option String), q.ctype ≠ q'.ctype →
      get_for_object (update_tags db' q s) q' = get_for_object db' q' :=
    fun db' q q' s hne => get_for_object_update_tags_frame db' q q' s (Or.inl hne)
  have hpa : parseTagList (some "a") = ["a"] := by decide
  have hpb : parseTagList (some "b") = ["b"] := by decide
  refine ⟨?_, ?_, hframe⟩
  · rw [hframe _ ⟨t2, id⟩ ⟨t1, id⟩ _ (fun hc => h (by simpa using hc.symm))]
    ext x
    simp only [List.mem_toFinset, Finset.mem_singleton]
    rw [mem_get_for_object_update_tags, hpa, List.mem_singleton]
  · ext x
    simp only [List.mem_toFinset, Finset.mem_singleton]
    rw [mem_get_for_object_update_tags, hpb, List.mem_singleton]

/-- Witness for C9 at concrete content types 1 ≠ 2, shared id 7, empty
initial state. -/
theorem update_tags_type_isolation_witness :
    (1 : Nat) ≠ 2
    ∧ ((get_for_object (update_tags (update_tags ⟨[], []⟩ ⟨1, 7⟩ (some "a")) ⟨2, 7⟩ (some "b"))
          ⟨1, 7⟩).toFinset = {"a"}
      ∧ (get_for_object (update_tags (update_tags ⟨[], []⟩ ⟨1, 7⟩ (some "a")) ⟨2, 7⟩ (some "b"))
          ⟨2, 7⟩).toFinset = {"b"}
      ∧ ∀ (db' : DB) (q q' : Record) (s : Option String), q.ctype ≠ q'.ctype →
          get_for_object (update_tags db' q s) q' = get_for_object db' q') :=
  ⟨by decide, update_tags_type_isolation ⟨[], []⟩ 1 2 7 (by decide)⟩

/-! ### Claim theorems: tag cloud -/

/-- C2 (code bug evidence): on a record type with no tagged records the
usage set is empty, and `cloud_for_model` does not return the empty sequence
unchanged: line 82 computes `max()` of an empty sequence, which raises
`ValueError` (modelled here by `none`), for every `steps`. -/
theorem cloud_for_model_empty_usage (steps : Nat) :
    cloud_for_model [] steps = none := rfl

/-- C7: for every non-empty count list and `steps`, `cloud_for_model`
assigns each tag (when an assignment occurs) the weight `i` equal to the
first `i` in `1..steps` with
`100·ln(count+2) ≤ 100·ln(min_weight + i·delta + 2)` where
`delta = (max_weight - min_weight)/steps` — that is `firstFit`, whose
first-match semantics means an assigned weight is never overwritten — and
any assigned weight is an integer in `[1, steps]`. -/
theorem cloud_for_model_first_threshold (counts : List Nat) (steps mx mn : Nat)
    (hmx : listMax counts = some mx) (hmn : listMin counts = some mn) (hsteps : 1 ≤ steps) :
    cloud_for_model counts steps
      = some (counts.map (firstFit (mn : ℝ) (((mx : ℝ) - (mn : ℝ)) / (steps : ℝ)) steps))
    ∧ ∀ c w, firstFit (mn : ℝ) (((mx : ℝ) - (mn : ℝ)) / (steps : ℝ)) steps c = some w →
        1 ≤ w ∧ w ≤ steps :=
  ⟨cloud_for_model_eq counts steps mx mn hmx hmn,
   fun _ w hw => firstFit_mem_bounds _ _ _ _ w hw⟩

/-- Witness for C7 at counts `[1, 10, 100]` and the default `steps = 4`. -/
theorem cloud_for_model_first_threshold_witness :
    listMax [1, 10, 100] = some 100 ∧ listMin [1, 10, 100] = some 1 ∧ (1 ≤ 4)
    ∧ (cloud_for_model [1, 10, 100] 4
        = some ([1, 10, 100].map (firstFit ((1 : Nat) : ℝ)
            ((((100 : Nat) : ℝ) - ((1 : Nat) : ℝ)) / ((4 : Nat) : ℝ)) 4))
      ∧ ∀ c w, firstFit ((1 : Nat) : ℝ)
            ((((100 : Nat) : ℝ) - ((1 : Nat) : ℝ)) / ((4 : Nat) : ℝ)) 4 c = some w →
          1 ≤ w ∧ w ≤ 4) :=
  ⟨by decide, by decide, by decide,
   cloud_for_model_first_threshold [1, 10, 100] 4 100 1 (by decide) (by decide) (by decide)⟩

/-- C8: cloud weights are monotone in usage count — in any
`cloud_for_model` result a tag with a larger count never receives a smaller
weight than a tag with a smaller count — and (over the idealised reals,
where the maximal count meets the last threshold exactly) every count in a
non-empty usage set is assigned a weight within `[1, steps]`, which covers
`"all but possibly the maximum-count tag"`. -/
theorem cloud_for_model_monotone (counts : List Nat) (steps mx mn : Nat)
    (hmx : listMax counts = some mx) (hmn : listMin counts = some mn) (hsteps : 1 ≤ steps) :
    cloud_for_model counts steps
      = some (counts.map (firstFit (mn : ℝ) (((mx : ℝ) - (mn : ℝ)) / (steps : ℝ)) steps))
    ∧ (∀ c1 c2 w2, c1 ≤ c2 →
        firstFit (mn : ℝ) (((mx : ℝ) - (mn : ℝ)) / (steps : ℝ)) steps c2 = some w2 →
        ∃ w1, firstFit (mn : ℝ) (((mx : ℝ) - (mn : ℝ)) / (steps : ℝ)) steps c1 = some w1
          ∧ w1 ≤ w2)
    ∧ ∀ c ∈ counts, ∃ w,
        firstFit (mn : ℝ) (((mx : ℝ) - (mn : ℝ)) / (steps : ℝ)) steps c = some w
        ∧ 1 ≤ w ∧ w ≤ steps := by
  refine ⟨cloud_for_model_eq counts steps mx mn hmx hmn, ?_,
    fun c hc => firstFit_total counts steps mx mn c hmx hsteps hc⟩
  intro c1 c2 w2 h12 h2
  simp only [firstFit] at h2 ⊢
  refine find?_le_of_imp (pairwise_le_range_map steps) ?_ h2
  intro i hq
  rw [decide_eq_true_eq] at hq ⊢
  have hc12 : (c1 : ℝ) + 2 ≤ (c2 : ℝ) + 2 := by
    have : (c1 : ℝ) ≤ (c2 : ℝ) := by exact_mod_cast h12
    linarith
  have hlog := Real.log_le_log (by positivity : (0 : ℝ) < (c1 : ℝ) + 2) hc12
  linarith

/-- Witness for C8 at counts `[1, 10, 100]` and `steps = 4`. -/
theorem cloud_for_model_monotone_witness :
    listMax [1, 10, 100] = some 100 ∧ listMin [1, 10, 100] = some 1 ∧ (1 ≤ 4)
    ∧ (cloud_for_model [1, 10, 100] 4
        = some ([1, 10, 100].map (firstFit ((1 : Nat) : ℝ)
            ((((100 : Nat) : ℝ) - ((1 : Nat) : ℝ)) / ((4 : Nat) : ℝ)) 4))
      ∧ (∀ c1 c2 w2, c1 ≤ c2 →
          firstFit ((1 : Nat) : ℝ)
              ((((100 : Nat) : ℝ) - ((1 : Nat) : ℝ)) / ((4 : Nat) : ℝ)) 4 c2 = some w2 →
          ∃ w1, firstFit ((1 : Nat) : ℝ)
              ((((100 : Nat) : ℝ) - ((1 : Nat) : ℝ)) / ((4 : Nat) : ℝ)) 4 c1 = some w1
            ∧ w1 ≤ w2)
      ∧ ∀ c ∈ ([1, 10, 100] : List Nat), ∃ w,
          firstFit ((1 : Nat) : ℝ)
              ((((100 : Nat) : ℝ) - ((1 : Nat) : ℝ)) / ((4 : Nat) : ℝ)) 4 c = some w
          ∧ 1 ≤ w ∧ w ≤ 4) :=
  ⟨by decide, by decide, by decide,
   cloud_for_model_monotone [1, 10, 100] 4 100 1 (by decide) (by decide) (by decide)⟩

lemma foldl_max_const (xs : List Nat) (c0 : Nat) (hall : ∀ c ∈ xs, c = c0) :
    xs.foldl Nat.max c0 = c0 := by
  induction xs with
  | nil => rfl
  | cons x t ih =>
      obtain rfl : x = c0 := hall x (List.mem_cons_self x t)
      have hmm : Nat.max x x = x := Nat.max_self x
      rw [List.foldl_cons, hmm]
      exact ih fun c hc => hall c (List.mem_cons_of_mem _ hc)

lemma foldl_min_const (xs : List Nat) (c0 : Nat) (hall : ∀ c ∈ xs, c = c0) :
    xs.foldl Nat.min c0 = c0 := by
  induction xs with
  | nil => rfl
  | cons x t ih =>
      obtain rfl : x = c0 := hall x (List.mem_cons_self x t)
      have hmm : Nat.min x x = x := Nat.min_self x
      rw [List.foldl_cons, hmm]
      exact ih fun c hc => hall c (List.mem_cons_of_mem _ hc)

lemma listMax_const (counts : List Nat) (c0 : Nat) (hne : counts ≠ [])
    (hall : ∀ c ∈ counts, c = c0) : listMax counts = some c0 := by
  cases counts with
  | nil => exact absurd rfl hne
  | cons x xs =>
      obtain rfl : x = c0 := hall x (List.mem_cons_self x xs)
      rw [listMax, foldl_max_const xs x fun c hc => hall c (List.mem_cons_of_mem _ hc)]

lemma listMin_const (counts : List Nat) (c0 : Nat) (hne : counts ≠ [])
    (hall : ∀ c ∈ counts, c = c0) : listMin counts = some c0 := by
  cases counts with
  | nil => exact absurd rfl hne
  | cons x xs =>
      obtain rfl : x = c0 := hall x (List.mem_cons_self x xs)
      rw [listMin, foldl_min_const xs x fun c hc => hall c (List.mem_cons_of_mem _ hc)]

/-- C10: when every tag of a type has the same usage count
(`min_weight = max_weight`, so `delta = 0` and all thresholds coincide),
`cloud_for_model` assigns weight 1 to every tag, for any `steps ≥ 1`. -/
theorem cloud_for_model_uniform_counts (counts : List Nat) (steps c0 : Nat)
    (hne : counts ≠ []) (hall : ∀ c ∈ counts, c = c0) (hsteps : 1 ≤ steps) :
    cloud_for_model counts steps = some (counts.map (fun _ => some (1 : Nat))) := by
  rw [cloud_for_model_eq counts steps c0 c0 (listMax_const counts c0 hne hall)
    (listMin_const counts c0 hne hall)]
  refine congrArg some (List.map_congr_left fun c hc => ?_)
  obtain rfl : c = c0 := hall c hc
  obtain ⟨k, rfl⟩ : ∃ k, steps = k + 1 := ⟨steps - 1, by omega⟩
  rw [firstFit, List.range_succ_eq_map, List.map_cons, List.find?_cons_of_pos]
  simp

/-- Witness for C10 at counts `[5, 5, 5]` and `steps = 4`. -/
theorem cloud_for_model_uniform_counts_witness :
    ([5, 5, 5] : List Nat) ≠ [] ∧ (∀ c ∈ ([5, 5, 5] : List Nat), c = 5) ∧ (1 ≤ 4)
    ∧ cloud_for_model [5, 5, 5] 4 = some ([5, 5, 5].map (fun _ => some (1 : Nat))) :=
  ⟨by decide, by decide, by decide,
   cloud_for_model_uniform_counts [5, 5, 5] 4 5 (by decide) (by decide) (by decide)⟩

end Tagging
